import Mathlib

/-!
Shallow embedding of the dynamic gRPC gateway core (descriptor parsing,
inline and file-backed method resolution, unary invocation, body transport
encoding) together with theorems checking the specification's claims.

Go strings are modelled as lists of runes (`List Char`); Go byte slices as
`List Nat`; Go maps as association lists with overwrite-on-insert; errors
produced by `fmt.Errorf` as constructors of an explicit error type, one
constructor per `fmt.Errorf` site.
-/

namespace Gateway

/-- Go string, modelled at the rune level. -/
abbrev GoStr := List Char

/-- Convenience conversion from a Lean string literal to a `GoStr`. -/
def gs (s : String) : GoStr := s.toList

/-- Whitespace recognised by `strings.TrimSpace` (ASCII subset used here). -/
def isGoSpace (c : Char) : Bool := c = ' ' || c = '\t' || c = '\n' || c = '\r'

/-- Model of `strings.TrimSpace`: drop leading and trailing whitespace runes. -/
def goTrimSpace (s : GoStr) : GoStr :=
  ((s.dropWhile isGoSpace).reverse.dropWhile isGoSpace).reverse

/-- Whether `p` is a leading segment of `s` (the check inside `strings.TrimPrefix`). -/
def hasPre (p s : GoStr) : Bool :=
  match p, s with
  | [], _ => true
  | _ :: _, [] => false
  | c :: p', d :: s' => if c = d then hasPre p' s' else false

/-- Model of `strings.TrimPrefix(s, p)`. -/
def goTrimLead (s p : GoStr) : GoStr :=
  if hasPre p s then s.drop p.length else s

/-- Model of `strings.SplitN(s, "/", 2)`: the pieces before and after the first
slash, or `none` when `s` has no slash (in which case Go returns one piece). -/
def splitOnSlash (s : GoStr) : Option (GoStr × GoStr) :=
  match s with
  | [] => none
  | c :: rest =>
    if c = '/' then some ([], rest)
    else
      match splitOnSlash rest with
      | some (a, b) => some (c :: a, b)
      | none => none

/-- Lookup in a Go map modelled as an association list. -/
def mapGet {α : Type} (m : List (GoStr × α)) (k : GoStr) : Option α :=
  match m with
  | [] => none
  | (k', v) :: rest => if k' = k then some v else mapGet rest k

/-- Insert into a Go map modelled as an association list: overwrite in place,
append when the key is new. -/
def mapInsert {α : Type} (m : List (GoStr × α)) (k : GoStr) (v : α) : List (GoStr × α) :=
  match m with
  | [] => [(k, v)]
  | (k', v') :: rest => if k' = k then (k, v) :: rest else (k', v') :: mapInsert rest k v

/-- Error values of the core, one constructor per `fmt.Errorf` site. -/
inductive CoreError where
  /-- "invalid full method name: %q, expected /package.Service/Method" -/
  | invalidFullMethodName (name : GoStr)
  /-- "read descriptor file %s: %w" -/
  | readDescriptorFile (path : GoStr)
  /-- "unmarshal FileDescriptorSet: %w" or "create file descriptors: %w" -/
  | parseDescriptor (msg : GoStr)
  /-- "method %q not found in descriptor set" -/
  | methodNotFoundInSet (name : GoStr)
  /-- "missing service or method" -/
  | missingServiceOrMethod
  /-- "ambiguous service name %q, candidates: %v" -/
  | ambiguousService (name : GoStr) (candidates : List GoStr)
  /-- "service %q not found in inline descriptor" -/
  | serviceNotFound (name : GoStr)
  /-- "method %q not found in service %q" -/
  | methodNotFoundInService (methodName : GoStr) (serviceFQN : GoStr)
  /-- "empty descriptor id" -/
  | emptyDescriptorID
  /-- "descriptor not found for id %q" -/
  | descriptorNotFound (id : GoStr)
  /-- "missing method for inline descriptor invocation" -/
  | missingMethodForInline
  /-- "missing full method name" -/
  | missingFullMethodName
  /-- "streaming method not supported: %s" -/
  | streamingNotSupported (name : GoStr)
  /-- "json to message: %w" -/
  | jsonToMessageErr (msg : GoStr)
  /-- "dial %s: %w" -/
  | dialErr (target : GoStr) (msg : GoStr)
  /-- "invoke rpc: %w" -/
  | invokeRpcErr (msg : GoStr)
  /-- error from `MessageToJSON` on the response -/
  | messageToJsonErr (msg : GoStr)
  /-- "resolve method: %w" -/
  | wrapResolve (cause : CoreError)
  /-- "resolve method from inline descriptor: %w" -/
  | wrapResolveInline (cause : CoreError)
  deriving DecidableEq

/-- Model of `desc.MethodDescriptor`: name, owning-service fully-qualified
name (`GetService().GetFullyQualifiedName()`), and the two streaming flags. -/
structure MethodDescriptor where
  name : GoStr
  serviceFQN : GoStr
  clientStreaming : Bool
  serverStreaming : Bool
  deriving DecidableEq

/-- Model of `desc.ServiceDescriptor`: the containing file's package, the
service's short name (`GetName()`) and its methods. -/
structure ServiceDesc where
  pkg : GoStr
  name : GoStr
  methods : List MethodDescriptor
  deriving DecidableEq

/-- `GetFullyQualifiedName()` of a service: `package.Name`, or just `Name`
when the file has no package. -/
def ServiceDesc.fqn (s : ServiceDesc) : GoStr :=
  if s.pkg = [] then s.name else s.pkg ++ '.' :: s.name

/-- Model of one parsed descriptor file (`desc.FileDescriptor`): its services. -/
structure FileDesc where
  services : List ServiceDesc
  deriving DecidableEq

/-- Model of `svc.FindMethodByName`. -/
def findMethodByName (ms : List MethodDescriptor) (m : GoStr) : Option MethodDescriptor :=
  match ms with
  | [] => none
  | md :: rest => if md.name = m then some md else findMethodByName rest m

/-- ResolvedMethod holds a resolved MethodDescriptor and its service
fully-qualified name. -/
structure ResolvedMethod where
  Method : MethodDescriptor
  ServiceFQN : GoStr
  deriving DecidableEq

/-- InlineDescriptorPool indexes parsed services by fully-qualified name and
by short name. -/
structure InlineDescriptorPool where
  servicesByFQN : List (GoStr × ServiceDesc)
  servicesByName : List (GoStr × List ServiceDesc)
  deriving DecidableEq

/-- Loop body of `newInlineDescriptorPool`: register one service under its
FQN, its dotted FQN, and its short name. -/
def addService (p : InlineDescriptorPool) (svc : ServiceDesc) : InlineDescriptorPool :=
  { servicesByFQN :=
      mapInsert (mapInsert p.servicesByFQN svc.fqn svc) ('.' :: svc.fqn) svc,
    servicesByName :=
      mapInsert p.servicesByName svc.name
        ((mapGet p.servicesByName svc.name).getD [] ++ [svc]) }

/-- Empty pool with both indices empty. -/
def emptyPool : InlineDescriptorPool := ⟨[], []⟩

/-- Index construction of `newInlineDescriptorPool`: iterate the parsed files
and their services, registering each. -/
def buildPool (files : List FileDesc) : InlineDescriptorPool :=
  files.foldl (fun p fd => fd.services.foldl addService p) emptyPool

/-- Environment for descriptor handling. `parse` models
`proto.Unmarshal` + `desc.CreateFileDescriptorsFromSet` (external library
code); `sha256Hex` models `hex.EncodeToString(sha256.Sum256(bytes))`
(external library code). -/
structure DescEnv where
  parse : List Nat → Except GoStr (List FileDesc)
  sha256Hex : List Nat → GoStr

/-- Model of `newInlineDescriptorPool`: parse the descriptor-set bytes and
build the two indices. -/
def newInlineDescriptorPool (env : DescEnv) (b : List Nat) :
    Except CoreError InlineDescriptorPool :=
  match env.parse b with
  | .error msg => .error (.parseDescriptor msg)
  | .ok files => .ok (buildPool files)

/-- ParseFullMethodName parses a gRPC full method name "/package.Service/Method"
into the service name and the method name. -/
def ParseFullMethodName (fullMethodName : GoStr) : Except CoreError (GoStr × GoStr) :=
  let f := goTrimLead fullMethodName ['/']
  match splitOnSlash f with
  | none => .error (.invalidFullMethodName f)
  | some (svc, m) => .ok (svc, m)

/-- Tail of `InlineDescriptorPool.Resolve`: method lookup within the selected
service. -/
def methodOutcome (svc : ServiceDesc) (method : GoStr) : Except CoreError ResolvedMethod :=
  match findMethodByName svc.methods method with
  | some md => .ok ⟨md, svc.fqn⟩
  | none => .error (.methodNotFoundInService method svc.fqn)

/-- Lookup chain of `InlineDescriptorPool.Resolve` after normalization:
exact FQN, dotted FQN, then unique short name. -/
def InlineDescriptorPool.lookupAfterNorm (p : InlineDescriptorPool)
    (service method : GoStr) : Except CoreError ResolvedMethod :=
  if service = [] ∨ method = [] then .error .missingServiceOrMethod
  else
    match mapGet p.servicesByFQN service with
    | some svc => methodOutcome svc method
    | none =>
      match mapGet p.servicesByFQN ('.' :: service) with
      | some svc => methodOutcome svc method
      | none =>
        match (mapGet p.servicesByName service).getD [] with
        | [svc] => methodOutcome svc method
        | [] => .error (.serviceNotFound service)
        | list => .error (.ambiguousService service (list.map ServiceDesc.fqn))

/-- Model of `InlineDescriptorPool.Resolve`: trim both arguments, correct a
method mistakenly passed as "/pkg.Service/Method", strip leading "/" and "."
qualifiers, then run the lookup chain. -/
def InlineDescriptorPool.Resolve (p : InlineDescriptorPool)
    (service0 method0 : GoStr) : Except CoreError ResolvedMethod :=
  let service1 := goTrimSpace service0
  let method1 := goTrimSpace method0
  let corrected :=
    if '/' ∈ method1 then
      match ParseFullMethodName method1 with
      | .ok (svc, m) => if service1 = [] then (svc, m) else (service1, method1)
      | .error _ => (service1, method1)
    else (service1, method1)
  let service3 := goTrimLead (goTrimLead corrected.1 ['/']) ['.']
  let method3 := goTrimLead corrected.2 ['/']
  p.lookupAfterNorm service3 method3

/-- InlineMethodResolver caches descriptor pools by identifier. -/
structure InlineMethodResolver where
  pools : List (GoStr × InlineDescriptorPool)
  deriving DecidableEq

/-- Fresh inline resolver with an empty pool cache. -/
def NewInlineMethodResolver : InlineMethodResolver := ⟨[]⟩

/-- Tail of `InlineMethodResolver.Resolve` once the cache key is known:
read the cached pool, or build it from the supplied bytes when absent,
then delegate to the pool's `Resolve`. -/
def InlineMethodResolver.resolveWithKey (env : DescEnv) (r : InlineMethodResolver)
    (descriptorSetBytes : List Nat) (key service method : GoStr) :
    Except CoreError (ResolvedMethod × GoStr) × InlineMethodResolver :=
  match mapGet r.pools key with
  | some pool =>
    match pool.Resolve service method with
    | .error e => (.error e, r)
    | .ok rm => (.ok (rm, key), r)
  | none =>
    if descriptorSetBytes = [] then (.error (.descriptorNotFound key), r)
    else
      match newInlineDescriptorPool env descriptorSetBytes with
      | .error e => (.error e, r)
      | .ok pool =>
        let r' : InlineMethodResolver := ⟨mapInsert r.pools key pool⟩
        match pool.Resolve service method with
        | .error e => (.error e, r')
        | .ok rm => (.ok (rm, key), r')

/-- Model of `InlineMethodResolver.Resolve`: derive the cache key from the
descriptor id or the bytes' digest, fail when both are empty, then resolve
with that key. The updated resolver state is returned alongside the result. -/
def InlineMethodResolver.Resolve (env : DescEnv) (r : InlineMethodResolver)
    (descriptorSetBytes : List Nat) (descriptorID service method : GoStr) :
    Except CoreError (ResolvedMethod × GoStr) × InlineMethodResolver :=
  let key :=
    if descriptorID = [] ∧ descriptorSetBytes ≠ [] then env.sha256Hex descriptorSetBytes
    else descriptorID
  if key = [] then (.error .emptyDescriptorID, r)
  else r.resolveWithKey env descriptorSetBytes key service method

/-- MethodResolver resolves and caches method descriptors by full method name
from per-service descriptor files. -/
structure MethodResolver where
  descriptorDir : GoStr
  cache : List (GoStr × MethodDescriptor)
  deriving DecidableEq

/-- Fresh file-backed resolver with an empty cache. -/
def NewMethodResolver (dir : GoStr) : MethodResolver := ⟨dir, []⟩

/-- Filesystem environment: `readFile` models `os.ReadFile`, `none` standing
for an I/O error. -/
structure FsEnv where
  readFile : GoStr → Option (List Nat)

/-- Search of one service's methods for the reconstructed full name
"/" ++ service FQN ++ "/" ++ method name. -/
def findInMethods (fqn : GoStr) (ms : List MethodDescriptor) (target : GoStr) :
    Option MethodDescriptor :=
  match ms with
  | [] => none
  | m :: rest =>
    if '/' :: (fqn ++ '/' :: m.name) = target then some m
    else findInMethods fqn rest target

/-- Search of a file's services, first match wins. -/
def findInServices (svcs : List ServiceDesc) (target : GoStr) : Option MethodDescriptor :=
  match svcs with
  | [] => none
  | s :: rest =>
    match findInMethods s.fqn s.methods target with
    | some m => some m
    | none => findInServices rest target

/-- Search of all parsed files, first match wins. -/
def findInFiles (files : List FileDesc) (target : GoStr) : Option MethodDescriptor :=
  match files with
  | [] => none
  | f :: rest =>
    match findInServices f.services target with
    | some m => some m
    | none => findInFiles rest target

/-- Model of `MethodResolver.Resolve`: cache hit returns immediately; on a
miss, parse the name, read "{dir}/{service}.pb", parse it, search for the
exact requested string, and memoize on success. -/
def MethodResolver.Resolve (env : DescEnv) (fs : FsEnv) (r : MethodResolver)
    (fullMethodName : GoStr) : Except CoreError MethodDescriptor × MethodResolver :=
  match mapGet r.cache fullMethodName with
  | some md => (.ok md, r)
  | none =>
    match ParseFullMethodName fullMethodName with
    | .error e => (.error e, r)
    | .ok (serviceName, _) =>
      let pbPath := r.descriptorDir ++ '/' :: (serviceName ++ gs ".pb")
      match fs.readFile pbPath with
      | none => (.error (.readDescriptorFile pbPath), r)
      | some data =>
        match env.parse data with
        | .error msg => (.error (.parseDescriptor msg), r)
        | .ok files =>
          match findInFiles files fullMethodName with
          | some m => (.ok m, ⟨r.descriptorDir, mapInsert r.cache fullMethodName m⟩)
          | none => (.error (.methodNotFoundInSet fullMethodName), r)

/-- Dynamic wire message (request or response payload), abstract. -/
abbrev WireMessage := List Nat

/-- gRPC client connection handle, abstract. -/
abbrev Conn := Nat

/-- Network-side environment of `Invoker.Invoke`: `jsonToMessage` models
`JSONToMessage` (jsonpb.Unmarshal into a dynamic message), `dial` models
`grpc.DialContext`, `invokeRpc` the dynamic stub call, and `messageToJson`
models `MessageToJSON` (jsonpb marshalling with EmitDefaults). -/
structure NetEnv where
  jsonToMessage : MethodDescriptor → List Nat → Except GoStr WireMessage
  dial : GoStr → Except GoStr Conn
  invokeRpc : Conn → MethodDescriptor → WireMessage → Except GoStr WireMessage
  messageToJson : WireMessage → Except GoStr (List Nat)

/-- Observable side effects of one invocation, in order of occurrence. -/
inductive Effect where
  | fxJsonDecode
  | fxDial
  | fxCall
  | fxJsonEncode
  deriving DecidableEq

/-- Invoker owns both resolver caches. The per-call timeout only bounds the
network steps and is not otherwise modelled. -/
structure Invoker where
  resolver : MethodResolver
  inlineResolver : InlineMethodResolver
  deriving DecidableEq

/-- InvokeRequest is the input for the HTTP gateway. -/
structure InvokeRequest where
  Target : GoStr
  FullMethodName : GoStr
  ServiceName : GoStr
  MethodName : GoStr
  InlineDescriptorSet : List Nat
  DescriptorID : GoStr
  Body : List Nat

/-- Method-resolution phase of `Invoker.Invoke`: the inline path when inline
descriptor fields are populated, the full-name path otherwise; each failure
is wrapped with its stage. Returns the resolved method and the full method
name used for reporting. -/
def Invoker.resolvePhase (env : DescEnv) (fs : FsEnv) (inv : Invoker)
    (req : InvokeRequest) :
    Except CoreError (ResolvedMethod × GoStr) × Invoker :=
  if req.InlineDescriptorSet ≠ [] ∨ req.DescriptorID ≠ [] then
    if req.MethodName = [] then (.error .missingMethodForInline, inv)
    else
      match InlineMethodResolver.Resolve env inv.inlineResolver
          req.InlineDescriptorSet req.DescriptorID req.ServiceName req.MethodName with
      | (.error e, ir) => (.error (.wrapResolveInline e), { inv with inlineResolver := ir })
      | (.ok (rm, _), ir) =>
        (.ok (rm, '/' :: (rm.ServiceFQN ++ '/' :: rm.Method.name)),
         { inv with inlineResolver := ir })
  else
    if req.FullMethodName = [] then (.error .missingFullMethodName, inv)
    else
      match MethodResolver.Resolve env fs inv.resolver req.FullMethodName with
      | (.error e, mr) => (.error (.wrapResolve e), { inv with resolver := mr })
      | (.ok md, mr) =>
        (.ok (⟨md, md.serviceFQN⟩, req.FullMethodName), { inv with resolver := mr })

/-- Model of `Invoker.Invoke`: resolve, reject streaming shapes, decode the
JSON body, dial, call, encode the response. The third component records which
external effects ran (body decode, dial, call, response encode). -/
def Invoker.Invoke (env : DescEnv) (fs : FsEnv) (net : NetEnv) (inv : Invoker)
    (req : InvokeRequest) :
    Except CoreError (List Nat) × Invoker × List Effect :=
  match inv.resolvePhase env fs req with
  | (.error e, inv') => (.error e, inv', [])
  | (.ok (rm, methodName), inv') =>
    if rm.Method.clientStreaming || rm.Method.serverStreaming then
      (.error (.streamingNotSupported methodName), inv', [])
    else
      match net.jsonToMessage rm.Method req.Body with
      | .error msg => (.error (.jsonToMessageErr msg), inv', [.fxJsonDecode])
      | .ok reqMsg =>
        match net.dial req.Target with
        | .error msg => (.error (.dialErr req.Target msg), inv', [.fxJsonDecode, .fxDial])
        | .ok conn =>
          match net.invokeRpc conn rm.Method reqMsg with
          | .error msg =>
            (.error (.invokeRpcErr msg), inv', [.fxJsonDecode, .fxDial, .fxCall])
          | .ok respMsg =>
            match net.messageToJson respMsg with
            | .error msg =>
              (.error (.messageToJsonErr msg), inv',
               [.fxJsonDecode, .fxDial, .fxCall, .fxJsonEncode])
            | .ok out =>
              (.ok out, inv', [.fxJsonDecode, .fxDial, .fxCall, .fxJsonEncode])

/-- Alphabet of `base64.StdEncoding`. -/
def b64Alphabet : GoStr :=
  gs "ABCDEFGHIJKLMNOPQRSTUVWXYZabcdefghijklmnopqrstuvwxyz0123456789+/"

/-- Character for a 6-bit value under the standard base64 alphabet. -/
def encChar (n : Nat) : Char := b64Alphabet.getD n 'A'

/-- Index scan used by `decChar`. -/
def decCharAux (l : GoStr) (c : Char) (i : Nat) : Option Nat :=
  match l with
  | [] => none
  | d :: rest => if d = c then some i else decCharAux rest c (i + 1)

/-- 6-bit value of a standard base64 character, `none` for characters outside
the alphabet (including the padding character). -/
def decChar (c : Char) : Option Nat := decCharAux b64Alphabet c 0

/-- Model of `base64.StdEncoding.EncodeToString`: encode the byte list in
3-byte groups into 4 characters each, padding the final partial group. -/
def encodeGroups : List Nat → GoStr
  | [] => []
  | [a] => [encChar (a / 4), encChar (a % 4 * 16), '=', '=']
  | [a, b] => [encChar (a / 4), encChar (a % 4 * 16 + b / 16), encChar (b % 16 * 4), '=']
  | a :: b :: c :: rest =>
    encChar (a / 4) :: encChar (a % 4 * 16 + b / 16) :: encChar (b % 16 * 4 + c / 64) ::
      encChar (c % 64) :: encodeGroups rest

/-- Model of `base64.StdEncoding.DecodeString`: decode 4-character quanta,
accepting padding only in the final quantum; `none` models a decode error.
Like Go's non-strict decoder, discarded trailing bits are not checked. -/
def decodeB64 : GoStr → Option (List Nat)
  | [] => some []
  | c1 :: c2 :: c3 :: c4 :: rest =>
    match decChar c1, decChar c2 with
    | some a, some b =>
      if c3 = '=' ∧ c4 = '=' ∧ rest = [] then some [a * 4 + b / 16]
      else if c4 = '=' ∧ rest = [] then
        match decChar c3 with
        | some c => some [a * 4 + b / 16, b % 16 * 16 + c / 4]
        | none => none
      else
        match decChar c3, decChar c4, decodeB64 rest with
        | some c, some d, some tail =>
          some ((a * 4 + b / 16) :: (b % 16 * 16 + c / 4) :: (c % 4 * 64 + d) :: tail)
        | _, _, _ => none
    | _, _ => none
  | _ => none

/-- Model of `encodeBase64V1`: standard base64, then reverse the whole rune
string. -/
def encodeBase64V1 (plain : List Nat) : GoStr := (encodeGroups plain).reverse

/-- Model of `decodeBase64V1`: empty input yields nil bytes with no error;
otherwise reverse the rune string and base64-decode it (`none` = error). -/
def decodeBase64V1 (s : GoStr) : Option (List Nat) :=
  if s = [] then some []
  else decodeB64 s.reverse

/-- Modelled from the spec: scalar field types of a message schema. The
schema-driven JSON codec behind `JSONToMessage`/`MessageToJSON` lives in the
external jsonpb library, so it is modelled here from the payload-codec
contract of the spec. -/
inductive FieldType where
  | fString
  | fInt
  | fBool
  deriving DecidableEq

/-- Modelled from the spec: JSON scalar values produced by the codec. -/
inductive JsonValue where
  | jStr (s : GoStr)
  | jNum (n : Int)
  | jBool (b : Bool)
  deriving DecidableEq

/-- Modelled from the spec: one named, typed field of a message schema. -/
structure FieldDef where
  name : GoStr
  typ : FieldType
  deriving DecidableEq

/-- Modelled from the spec: a message schema (the method's input or output
message type). -/
structure MessageSchema where
  fields : List FieldDef
  deriving DecidableEq

/-- Modelled from the spec: a field value carried by a dynamic message. -/
inductive FieldValue where
  | vStr (s : GoStr)
  | vInt (n : Int)
  | vBool (b : Bool)
  deriving DecidableEq

/-- Type of a field value. -/
def FieldValue.typ : FieldValue → FieldType
  | .vStr _ => .fString
  | .vInt _ => .fInt
  | .vBool _ => .fBool

/-- Zero value of each field type (proto3 default). -/
def defaultValue : FieldType → FieldValue
  | .fString => .vStr []
  | .fInt => .vInt 0
  | .fBool => .vBool false

/-- JSON rendering of one field value. -/
def valueToJson : FieldValue → JsonValue
  | .vStr s => .jStr s
  | .vInt n => .jNum n
  | .vBool b => .jBool b

/-- Type-directed reading of one field value from JSON; `none` on a type
mismatch (the codec reports an error rather than coercing). -/
def valueFromJson : FieldType → JsonValue → Option FieldValue
  | .fString, .jStr s => some (.vStr s)
  | .fInt, .jNum n => some (.vInt n)
  | .fBool, .jBool b => some (.vBool b)
  | _, _ => none

/-- JSON object: named members in order. -/
abbrev JsonObj := List (GoStr × JsonValue)

/-- Modelled from the spec: a dynamic message as named field values. -/
structure DynMessage where
  fields : List (GoStr × FieldValue)
  deriving DecidableEq

/-- Modelled from the spec: `MessageToJSON` with jsonpb's `EmitDefaults: true`
configuration (set on `jsonpbMarshaler` in the source) — every field of the
message is emitted, default-valued fields included, none omitted. -/
def MessageToJSON (msg : DynMessage) : JsonObj :=
  msg.fields.map (fun p => (p.1, valueToJson p.2))

/-- Field-by-field decoding of the schema's fields from a JSON object: an
absent member yields the field's default; a present member must have the
field's type. -/
def decodeFields : List FieldDef → JsonObj → Except GoStr (List (GoStr × FieldValue))
  | [], _ => .ok []
  | fd :: rest, j =>
    match mapGet j fd.name with
    | none => (decodeFields rest j).map (fun tail => (fd.name, defaultValue fd.typ) :: tail)
    | some jv =>
      match valueFromJson fd.typ jv with
      | none => .error (gs "type mismatch")
      | some v => (decodeFields rest j).map (fun tail => (fd.name, v) :: tail)

/-- Modelled from the spec: `JSONToMessage` — decode a JSON object into a
message of the given schema, honouring the schema's field names and types
and defaulting absent optional fields. -/
def JSONToMessage (schema : MessageSchema) (j : JsonObj) : Except GoStr DynMessage :=
  (decodeFields schema.fields j).map DynMessage.mk

/-- Conformance of a message to a schema: same field names and types, in
schema order. -/
def conformsTo (schema : MessageSchema) (msg : DynMessage) : Prop :=
  msg.fields.map Prod.fst = schema.fields.map FieldDef.name ∧
  msg.fields.map (fun p => p.2.typ) = schema.fields.map FieldDef.typ

section MapLemmas

variable {α : Type}

theorem mapGet_insert_self (m : List (GoStr × α)) (k : GoStr) (v : α) :
    mapGet (mapInsert m k v) k = some v := by
  induction m with
  | nil => simp [mapInsert, mapGet]
  | cons hd tl ih =>
    obtain ⟨k', v'⟩ := hd
    by_cases h : k' = k
    · simp [mapInsert, mapGet, h]
    · simp [mapInsert, mapGet, h, ih]

theorem mapGet_insert_ne (m : List (GoStr × α)) (k k' : GoStr) (v : α)
    (h : k' ≠ k) : mapGet (mapInsert m k v) k' = mapGet m k' := by
  induction m with
  | nil => simp [mapInsert, mapGet, Ne.symm h]
  | cons hd tl ih =>
    obtain ⟨k0, v0⟩ := hd
    by_cases h0 : k0 = k
    · subst h0
      simp [mapInsert, mapGet, Ne.symm h]
    · simp [mapInsert, mapGet, h0, ih]

end MapLemmas

/-- Decidable equality of `Except` results, for evaluating the embedding at
concrete inputs. -/
instance exceptDecEq {ε α : Type} [DecidableEq ε] [DecidableEq α] :
    DecidableEq (Except ε α) := fun x y =>
  match x, y with
  | .ok a, .ok b =>
    if h : a = b then .isTrue (by rw [h]) else .isFalse (by intro hh; cases hh; exact h rfl)
  | .error a, .error b =>
    if h : a = b then .isTrue (by rw [h]) else .isFalse (by intro hh; cases hh; exact h rfl)
  | .ok _, .error _ => .isFalse (by intro hh; cases hh)
  | .error _, .ok _ => .isFalse (by intro hh; cases hh)

/-- Key derivation written after the claim's words: a non-empty descriptorId
is used verbatim; otherwise non-empty bytes are keyed by their hex-encoded
SHA-256 digest; with neither present, resolution fails with the
empty-descriptor-id error. -/
def specCacheKey (env : DescEnv) (b : List Nat) (id : GoStr) : Except CoreError GoStr :=
  if id ≠ [] then .ok id
  else if b ≠ [] then .ok (env.sha256Hex b)
  else .error .emptyDescriptorID

theorem resolveWithKey_snd (env : DescEnv) (r : InlineMethodResolver)
    (b : List Nat) (k service method : GoStr) :
    (InlineMethodResolver.resolveWithKey env r b k service method).1.toOption.map Prod.snd =
      (InlineMethodResolver.resolveWithKey env r b k service method).1.toOption.map
        (fun _ => k) := by
  unfold InlineMethodResolver.resolveWithKey
  rcases hpool : mapGet r.pools k with _ | pool
  · by_cases hb : b = []
    · simp [hb, Except.toOption]
    · rcases hnew : newInlineDescriptorPool env b with e | pool
      · simp [hb, hnew, Except.toOption]
      · rcases hres : pool.Resolve service method with e | rm <;>
          simp [hb, hnew, hres, Except.toOption]
  · rcases hres : pool.Resolve service method with e | rm <;> simp [hres, Except.toOption]

/-- C4: `InlineMethodResolver.Resolve` derives its cache key exactly as the
spec states — a non-empty descriptorID is used verbatim, otherwise non-empty
bytes are keyed by their digest, and with both empty the call fails with the
empty-descriptor-id error returning the resolver state unchanged (the cache
untouched); on success the derived key is the returned cacheKeyUsed. -/
theorem c4_cache_key_derivation (env : DescEnv) (r : InlineMethodResolver)
    (b : List Nat) (id service method : GoStr)
    (hh : ∀ bs : List Nat, env.sha256Hex bs ≠ []) :
    InlineMethodResolver.Resolve env r b id service method =
      (match specCacheKey env b id with
       | .error e => (.error e, r)
       | .ok k => r.resolveWithKey env b k service method) ∧
    (InlineMethodResolver.Resolve env r b id service method).1.toOption.map Prod.snd =
      (InlineMethodResolver.Resolve env r b id service method).1.toOption.map
        (fun _ => (specCacheKey env b id).toOption.getD []) := by
  have h1 : InlineMethodResolver.Resolve env r b id service method =
      (match specCacheKey env b id with
       | .error e => (.error e, r)
       | .ok k => r.resolveWithKey env b k service method) := by
    by_cases hid : id = []
    · by_cases hb : b = []
      · simp [InlineMethodResolver.Resolve, specCacheKey, hid, hb]
      · simp [InlineMethodResolver.Resolve, specCacheKey, hid, hb, hh b]
    · simp [InlineMethodResolver.Resolve, specCacheKey, hid]
  refine ⟨h1, ?_⟩
  rw [h1]
  rcases hsk : specCacheKey env b id with e | k
  · simp [Except.toOption]
  · simpa using resolveWithKey_snd env r b k service method

/-- Concrete instantiation of the key-derivation theorem: with both the
descriptor id and the bytes empty, resolution fails with the
empty-descriptor-id error and the fresh resolver state is returned unchanged. -/
theorem c4_cache_key_derivation_witness :
    InlineMethodResolver.Resolve
        ⟨fun _ => .error (gs "x"), fun _ => gs "hash"⟩ ⟨[]⟩ [] [] [] [] =
      (.error .emptyDescriptorID, ⟨[]⟩) := by
  have hh : ∀ bs : List Nat,
      DescEnv.sha256Hex ⟨fun _ => .error (gs "x"), fun _ => gs "hash"⟩ bs ≠ [] := by
    intro bs
    show gs "hash" ≠ []
    decide
  have h := c4_cache_key_derivation ⟨fun _ => .error (gs "x"), fun _ => gs "hash"⟩
    ⟨[]⟩ [] [] [] [] hh
  rw [h.1]
  decide

/-- C3: resolving with empty bytes by an identifier under which no pool is
cached fails with the descriptor-not-found error and leaves the resolver
unchanged; whereas after a successful resolution that supplied bytes under an
identifier, a later bytes-empty resolution with the same identifier and the
same service and method returns the same Resolved Method. -/
theorem c3_identifier_only_resolution (env : DescEnv) (r0 r1 : InlineMethodResolver)
    (b : List Nat) (id1 id2 service method : GoStr) (rm : ResolvedMethod) (k : GoStr)
    (h1 : id1 ≠ []) (hmiss : mapGet r0.pools id1 = none)
    (h2 : id2 ≠ []) (hb : b ≠ [])
    (hfirst : InlineMethodResolver.Resolve env r0 b id2 service method = (.ok (rm, k), r1)) :
    InlineMethodResolver.Resolve env r0 [] id1 service method =
      (.error (.descriptorNotFound id1), r0) ∧
    InlineMethodResolver.Resolve env r1 [] id2 service method = (.ok (rm, id2), r1) := by
  constructor
  · simp [InlineMethodResolver.Resolve, InlineMethodResolver.resolveWithKey, h1, hmiss]
  · simp only [InlineMethodResolver.Resolve] at hfirst
    rw [show (if id2 = [] ∧ b ≠ [] then env.sha256Hex b else id2) = id2 from
      if_neg (by simp [h2])] at hfirst
    rw [if_neg h2] at hfirst
    rcases hpool : mapGet r0.pools id2 with _ | pool
    · rcases hnew : newInlineDescriptorPool env b with e | pool
      · simp [InlineMethodResolver.resolveWithKey, hpool, hb, hnew] at hfirst
      · rcases hres : pool.Resolve service method with e | rm0
        · simp [InlineMethodResolver.resolveWithKey, hpool, hb, hnew, hres] at hfirst
        · simp only [InlineMethodResolver.resolveWithKey, hpool, hb, hnew, hres,
            if_neg (by simpa using hb)] at hfirst
          obtain ⟨⟨hrm, hkk⟩, hr1⟩ := by
            simpa using hfirst
          subst hrm hkk
          simp [InlineMethodResolver.Resolve, InlineMethodResolver.resolveWithKey, h2,
            ← hr1, mapGet_insert_self, hres]
    · rcases hres : pool.Resolve service method with e | rm0
      · simp [InlineMethodResolver.resolveWithKey, hpool, hres] at hfirst
      · simp only [InlineMethodResolver.resolveWithKey, hpool, hres] at hfirst
        obtain ⟨⟨hrm, hkk⟩, hr1⟩ := by
          simpa using hfirst
        subst hrm hkk
        simp [InlineMethodResolver.Resolve, InlineMethodResolver.resolveWithKey, h2,
          ← hr1, hpool, hres]

/-- Service "pkg.A" with only the unary method "M1". -/
def svcA1 : ServiceDesc := ⟨gs "pkg", gs "A", [⟨gs "M1", gs "pkg.A", false, false⟩]⟩

/-- Service "pkg.A" with only the unary method "M2". -/
def svcA2 : ServiceDesc := ⟨gs "pkg", gs "A", [⟨gs "M2", gs "pkg.A", false, false⟩]⟩

/-- Environment whose parse function serves two distinct descriptor blobs:
bytes [1] describe service pkg.A with method M1 only, bytes [2] the same
service with method M2 only. -/
def envA : DescEnv :=
  ⟨fun b =>
    if b = [1] then .ok [⟨[svcA1]⟩]
    else if b = [2] then .ok [⟨[svcA2]⟩]
    else .error (gs "bad"),
   fun _ => gs "h"⟩

/-- Concrete instantiation of the identifier-only resolution theorem: an
unknown identifier fails with descriptor-not-found; after supplying bytes
under "id", the identifier-only resolution returns the first result. -/
theorem c3_identifier_only_resolution_witness :
    InlineMethodResolver.Resolve envA ⟨[]⟩ [] (gs "nope") (gs "pkg.A") (gs "M1") =
      (.error (.descriptorNotFound (gs "nope")), ⟨[]⟩) ∧
    InlineMethodResolver.Resolve envA ⟨[(gs "id", buildPool [⟨[svcA1]⟩])]⟩ []
        (gs "id") (gs "pkg.A") (gs "M1") =
      (.ok (⟨⟨gs "M1", gs "pkg.A", false, false⟩, gs "pkg.A"⟩, gs "id"),
       ⟨[(gs "id", buildPool [⟨[svcA1]⟩])]⟩) := by
  exact c3_identifier_only_resolution envA ⟨[]⟩ ⟨[(gs "id", buildPool [⟨[svcA1]⟩])]⟩
    [1] (gs "nope") (gs "id") (gs "pkg.A") (gs "M1")
    ⟨⟨gs "M1", gs "pkg.A", false, false⟩, gs "pkg.A"⟩ (gs "id")
    (by decide) (by decide) (by decide) (by decide) (by decide)

/-- C9: when the supplied descriptor bytes fail to parse, `Resolve` returns
the parse error and leaves the pool cache unchanged, so a later
identifier-only resolution for the derived key still fails with the
descriptor-not-found error. -/
theorem c9_parse_error_leaves_cache (env : DescEnv) (r : InlineMethodResolver)
    (b : List Nat) (id service method k msg : GoStr)
    (hb : b ≠ [])
    (hk : (if id = [] ∧ b ≠ [] then env.sha256Hex b else id) = k)
    (hk0 : k ≠ [])
    (hmiss : mapGet r.pools k = none)
    (hparse : env.parse b = .error msg) :
    InlineMethodResolver.Resolve env r b id service method =
      (.error (.parseDescriptor msg), r) ∧
    InlineMethodResolver.Resolve env r [] k service method =
      (.error (.descriptorNotFound k), r) := by
  constructor
  · simp only [InlineMethodResolver.Resolve]
    rw [hk]
    simp [hk0, InlineMethodResolver.resolveWithKey, hmiss, hb,
      newInlineDescriptorPool, hparse]
  · simp [InlineMethodResolver.Resolve, hk0, InlineMethodResolver.resolveWithKey, hmiss]

/-- Concrete instantiation of the parse-error theorem: unparseable bytes [9]
under identifier "id" report the parse error, and the identifier stays
unknown to the cache. -/
theorem c9_parse_error_leaves_cache_witness :
    InlineMethodResolver.Resolve envA ⟨[]⟩ [9] (gs "id") (gs "pkg.A") (gs "M1") =
      (.error (.parseDescriptor (gs "bad")), ⟨[]⟩) ∧
    InlineMethodResolver.Resolve envA ⟨[]⟩ [] (gs "id") (gs "pkg.A") (gs "M1") =
      (.error (.descriptorNotFound (gs "id")), ⟨[]⟩) := by
  exact c9_parse_error_leaves_cache envA ⟨[]⟩ [9] (gs "id") (gs "pkg.A") (gs "M1")
    (gs "id") (gs "bad") (by decide) (by decide) (by decide) (by decide) (by decide)

/-- C1 fails on the code: when the identifier is already cached, supplying
new descriptor bytes does not reparse or overwrite — the call resolves
against the old cached pool and returns its method-not-found error, leaving
the state unchanged, even though the new bytes do contain the requested
method. The first conjunct shows the first upload caching bytes [1]; the
second shows the second call with bytes [2] failing against the old pool and
not touching the cache; the third shows that a pool freshly built from bytes
[2] would have resolved the method. -/
theorem c1_resupplied_bytes_are_ignored :
    InlineMethodResolver.Resolve envA ⟨[]⟩ [1] (gs "id") (gs "pkg.A") (gs "M1") =
      (.ok (⟨⟨gs "M1", gs "pkg.A", false, false⟩, gs "pkg.A"⟩, gs "id"),
       ⟨[(gs "id", buildPool [⟨[svcA1]⟩])]⟩) ∧
    InlineMethodResolver.Resolve envA ⟨[(gs "id", buildPool [⟨[svcA1]⟩])]⟩ [2]
        (gs "id") (gs "pkg.A") (gs "M2") =
      (.error (.methodNotFoundInService (gs "M2") (gs "pkg.A")),
       ⟨[(gs "id", buildPool [⟨[svcA1]⟩])]⟩) ∧
    (buildPool [⟨[svcA2]⟩]).Resolve (gs "pkg.A") (gs "M2") =
      .ok ⟨⟨gs "M2", gs "pkg.A", false, false⟩, gs "pkg.A"⟩ := by
  decide

/-- Whether a resolver outcome is an error. -/
def isErrorOutcome {α : Type} : Except CoreError α → Bool
  | .error _ => true
  | .ok _ => false

/-- Whether an outcome is specifically the invalid-full-method-name error. -/
def isInvalidFullMethodOutcome {α : Type} : Except CoreError α → Bool
  | .error (.invalidFullMethodName _) => true
  | _ => false

theorem splitOnSlash_eq_none (s : GoStr) (h : '/' ∉ s) : splitOnSlash s = none := by
  induction s with
  | nil => rfl
  | cons c rest ih =>
    have hc : ¬c = '/' := by
      intro hh
      exact h (by simp [hh])
    have hr : '/' ∉ rest := fun hm => h (List.mem_cons_of_mem _ hm)
    simp [splitOnSlash, hc, ih hr]

theorem splitOnSlash_isSome (s : GoStr) (h : '/' ∈ s) :
    ∃ a b, splitOnSlash s = some (a, b) := by
  induction s with
  | nil => cases h
  | cons c rest ih =>
    by_cases hc : c = '/'
    · exact ⟨[], rest, by simp [splitOnSlash, hc]⟩
    · have hr : '/' ∈ rest := by
        rcases List.mem_cons.mp h with h1 | h1
        · exact absurd h1.symm hc
        · exact h1
      obtain ⟨a, b, hab⟩ := ih hr
      exact ⟨c :: a, b, by simp [splitOnSlash, hc, hab]⟩

theorem findInMethods_none (fqn : GoStr) (ms : List MethodDescriptor) (t : GoStr)
    (h : ∀ x : GoStr, t ≠ '/' :: x) : findInMethods fqn ms t = none := by
  induction ms with
  | nil => rfl
  | cons m rest ih =>
    have hne : ¬('/' :: (fqn ++ '/' :: m.name) = t) := fun heq => h _ heq.symm
    simp [findInMethods, hne, ih]

theorem findInServices_none (svcs : List ServiceDesc) (t : GoStr)
    (h : ∀ x : GoStr, t ≠ '/' :: x) : findInServices svcs t = none := by
  induction svcs with
  | nil => rfl
  | cons s rest ih => simp [findInServices, findInMethods_none _ _ _ h, ih]

theorem findInFiles_none (files : List FileDesc) (t : GoStr)
    (h : ∀ x : GoStr, t ≠ '/' :: x) : findInFiles files t = none := by
  induction files with
  | nil => rfl
  | cons f rest ih => simp [findInFiles, findInServices_none _ _ h, ih]

/-- C2 (amended): a full method name missing one path segment (no slash after
stripping an optional leading one) fails with the descriptive
invalid-full-method-name error; a name missing only the leading separator
passes name parsing and resolution then fails — never with a partial match,
never successfully, and never with the invalid-full-method-name error — and
leaves the cache unchanged. -/
theorem c2_malformed_full_method_name (env : DescEnv) (fs : FsEnv) (r : MethodResolver)
    (f1 f2 : GoStr)
    (hc1 : mapGet r.cache f1 = none)
    (h1 : '/' ∉ goTrimLead f1 ['/'])
    (hc2 : mapGet r.cache f2 = none)
    (h2 : hasPre ['/'] f2 = false)
    (h3 : '/' ∈ f2) :
    MethodResolver.Resolve env fs r f1 =
      (.error (.invalidFullMethodName (goTrimLead f1 ['/'])), r) ∧
    isErrorOutcome (MethodResolver.Resolve env fs r f2).1 = true ∧
    isInvalidFullMethodOutcome (MethodResolver.Resolve env fs r f2).1 = false ∧
    (MethodResolver.Resolve env fs r f2).2 = r := by
  have hhead : ∀ x : GoStr, f2 ≠ '/' :: x := by
    intro x heq
    rw [heq] at h2
    simp [hasPre] at h2
  have htrim : goTrimLead f2 ['/'] = f2 := by
    simp [goTrimLead, h2]
  obtain ⟨a, bb, hsplit⟩ := splitOnSlash_isSome f2 h3
  refine ⟨?_, ?_⟩
  · simp [MethodResolver.Resolve, hc1, ParseFullMethodName, splitOnSlash_eq_none _ h1]
  · simp only [MethodResolver.Resolve, hc1, hc2, ParseFullMethodName, htrim, hsplit]
    rcases hread : fs.readFile (r.descriptorDir ++ '/' :: (a ++ gs ".pb")) with _ | data
    · simp [hread, isErrorOutcome, isInvalidFullMethodOutcome]
    · rcases hp : env.parse data with msg | files
      · simp [hread, hp, isErrorOutcome, isInvalidFullMethodOutcome]
      · simp [hread, hp, findInFiles_none files f2 hhead,
          isErrorOutcome, isInvalidFullMethodOutcome]

/-- Service "pkg.Svc" with the unary method "Method". -/
def svcPkgSvc : ServiceDesc := ⟨gs "pkg", gs "Svc", [⟨gs "Method", gs "pkg.Svc", false, false⟩]⟩

/-- Environment whose parse function serves bytes [3] as a descriptor set
containing service pkg.Svc with method Method. -/
def envB : DescEnv :=
  ⟨fun b => if b = [3] then .ok [⟨[svcPkgSvc]⟩] else .error (gs "bad"), fun _ => gs "h"⟩

/-- Filesystem serving exactly the descriptor file for service pkg.Svc. -/
def fsB : FsEnv := ⟨fun p => if p = gs "dir/pkg.Svc.pb" then some [3] else none⟩

/-- C2 as stated fails on the code: "pkg.Svc/Method", malformed by a missing
leading separator, does not produce the invalid-full-method-name error — name
parsing accepts it, the service file is read and parsed, and the search fails
with the method-not-found error because every reconstructed candidate name
starts with the separator. -/
theorem c2_missing_separator_counterexample :
    MethodResolver.Resolve envB fsB ⟨gs "dir", []⟩ (gs "pkg.Svc/Method") =
      (.error (.methodNotFoundInSet (gs "pkg.Svc/Method")), ⟨gs "dir", []⟩) ∧
    isInvalidFullMethodOutcome
        (MethodResolver.Resolve envB fsB ⟨gs "dir", []⟩ (gs "pkg.Svc/Method")).1 = false := by
  decide

/-- Concrete instantiation of the amended malformed-name theorem at
"pkg.SvcMethod" (missing one segment) and "pkg.Svc/Method" (missing the
leading separator). -/
theorem c2_malformed_full_method_name_witness :
    MethodResolver.Resolve envB fsB ⟨gs "dir", []⟩ (gs "pkg.SvcMethod") =
      (.error (.invalidFullMethodName (gs "pkg.SvcMethod")), ⟨gs "dir", []⟩) ∧
    isErrorOutcome (MethodResolver.Resolve envB fsB ⟨gs "dir", []⟩ (gs "pkg.Svc/Method")).1 =
      true ∧
    isInvalidFullMethodOutcome
        (MethodResolver.Resolve envB fsB ⟨gs "dir", []⟩ (gs "pkg.Svc/Method")).1 = false ∧
    (MethodResolver.Resolve envB fsB ⟨gs "dir", []⟩ (gs "pkg.Svc/Method")).2 =
      ⟨gs "dir", []⟩ := by
  have h := c2_malformed_full_method_name envB fsB ⟨gs "dir", []⟩
    (gs "pkg.SvcMethod") (gs "pkg.Svc/Method")
    (by decide) (by decide) (by decide) (by decide) (by decide)
  exact h

/-- C6: whenever the resolution phase of `Invoke` succeeds with a method
whose client-streaming or server-streaming flag is set, `Invoke` fails with
the streaming-method-not-supported error for any target and payload, and its
effect trace is empty — in particular the body was not decoded and the
network was not dialed. -/
theorem c6_streaming_rejected_before_io (env : DescEnv) (fs : FsEnv) (net : NetEnv)
    (inv inv' : Invoker) (req : InvokeRequest) (rm : ResolvedMethod) (methodName : GoStr)
    (hres : inv.resolvePhase env fs req = (.ok (rm, methodName), inv'))
    (hstream : (rm.Method.clientStreaming || rm.Method.serverStreaming) = true) :
    inv.Invoke env fs net req =
      (.error (.streamingNotSupported methodName), inv', []) ∧
    Effect.fxJsonDecode ∉ (inv.Invoke env fs net req).2.2 ∧
    Effect.fxDial ∉ (inv.Invoke env fs net req).2.2 := by
  have h : inv.Invoke env fs net req =
      (.error (.streamingNotSupported methodName), inv', []) := by
    simp [Invoker.Invoke, hres, hstream]
  refine ⟨h, ?_, ?_⟩ <;> simp [h]

/-- Service "pkg.S" with the client-streaming method "Up". -/
def svcStream : ServiceDesc := ⟨gs "pkg", gs "S", [⟨gs "Up", gs "pkg.S", true, false⟩]⟩

/-- Environment whose parse function serves bytes [4] as a descriptor set
containing the streaming service. -/
def envStream : DescEnv :=
  ⟨fun b => if b = [4] then .ok [⟨[svcStream]⟩] else .error (gs "bad"), fun _ => gs "h"⟩

/-- Network environment that would answer every step, to show none of it is
reached for a streaming method. -/
def netTrivial : NetEnv :=
  ⟨fun _ _ => .ok [], fun _ => .ok 0, fun _ _ _ => .ok [], fun _ => .ok []⟩

/-- Empty filesystem: every read fails. -/
def fsEmpty : FsEnv := ⟨fun _ => none⟩

/-- Fresh invoker with empty caches over descriptor directory "dir". -/
def invFresh : Invoker := ⟨⟨gs "dir", []⟩, ⟨[]⟩⟩

/-- Invocation request supplying the streaming descriptor inline. -/
def reqStream : InvokeRequest :=
  ⟨gs "t:1", [], gs "pkg.S", gs "Up", [4], gs "sid", [123, 125]⟩

/-- Concrete instantiation of the streaming-rejection theorem: invoking the
client-streaming method pkg.S/Up through the inline path fails with the
streaming-not-supported error and runs no body decode and no dial. -/
theorem c6_streaming_rejected_before_io_witness :
    invFresh.Invoke envStream fsEmpty netTrivial reqStream =
      (.error (.streamingNotSupported (gs "/pkg.S/Up")),
       ⟨⟨gs "dir", []⟩, ⟨[(gs "sid", buildPool [⟨[svcStream]⟩])]⟩⟩, []) ∧
    Effect.fxJsonDecode ∉ (invFresh.Invoke envStream fsEmpty netTrivial reqStream).2.2 ∧
    Effect.fxDial ∉ (invFresh.Invoke envStream fsEmpty netTrivial reqStream).2.2 := by
  have h := c6_streaming_rejected_before_io envStream fsEmpty netTrivial
    invFresh ⟨⟨gs "dir", []⟩, ⟨[(gs "sid", buildPool [⟨[svcStream]⟩])]⟩⟩ reqStream
    ⟨⟨gs "Up", gs "pkg.S", true, false⟩, gs "pkg.S"⟩ (gs "/pkg.S/Up")
    (by decide) (by decide)
  exact h

theorem decChar_encChar : ∀ n, n < 64 → decChar (encChar n) = some n := by decide

theorem encChar_ne_pad : ∀ n, n < 64 → ¬(encChar n = '=') := by decide

theorem decodeB64_encodeGroups : ∀ l : List Nat, (∀ x ∈ l, x < 256) →
    decodeB64 (encodeGroups l) = some l
  | [], _ => rfl
  | [a], h => by
    have ha : a < 256 := h a (by simp)
    have e1 : decChar (encChar (a / 4)) = some (a / 4) := decChar_encChar _ (by omega)
    have e2 : decChar (encChar (a % 4 * 16)) = some (a % 4 * 16) :=
      decChar_encChar _ (by omega)
    simp only [encodeGroups, decodeB64, e1, e2]
    simp
    omega
  | [a, b], h => by
    have ha : a < 256 := h a (by simp)
    have hb : b < 256 := h b (by simp)
    have e1 : decChar (encChar (a / 4)) = some (a / 4) := decChar_encChar _ (by omega)
    have e2 : decChar (encChar (a % 4 * 16 + b / 16)) = some (a % 4 * 16 + b / 16) :=
      decChar_encChar _ (by omega)
    have e3 : decChar (encChar (b % 16 * 4)) = some (b % 16 * 4) :=
      decChar_encChar _ (by omega)
    have ne3 : ¬(encChar (b % 16 * 4) = '=') := encChar_ne_pad _ (by omega)
    simp only [encodeGroups, decodeB64, e1, e2, e3]
    rw [if_neg (by simp [ne3])]
    rw [if_pos (by simp)]
    simp
    constructor
    · omega
    · omega
  | a :: b :: c :: rest, h => by
    have ha : a < 256 := h a (by simp)
    have hb : b < 256 := h b (by simp)
    have hc : c < 256 := h c (by simp)
    have ih := decodeB64_encodeGroups rest (fun x hx => h x (by simp [hx]))
    have e1 : decChar (encChar (a / 4)) = some (a / 4) := decChar_encChar _ (by omega)
    have e2 : decChar (encChar (a % 4 * 16 + b / 16)) = some (a % 4 * 16 + b / 16) :=
      decChar_encChar _ (by omega)
    have e3 : decChar (encChar (b % 16 * 4 + c / 64)) = some (b % 16 * 4 + c / 64) :=
      decChar_encChar _ (by omega)
    have e4 : decChar (encChar (c % 64)) = some (c % 64) := decChar_encChar _ (by omega)
    have ne3 : ¬(encChar (b % 16 * 4 + c / 64) = '=') := encChar_ne_pad _ (by omega)
    have ne4 : ¬(encChar (c % 64) = '=') := encChar_ne_pad _ (by omega)
    simp only [encodeGroups, decodeB64, e1, e2, e3, e4]
    rw [if_neg (by simp [ne3])]
    rw [if_neg (by simp [ne4])]
    rw [ih]
    have v1 : a / 4 * 4 + (a % 4 * 16 + b / 16) / 16 = a := by omega
    have v2 : (a % 4 * 16 + b / 16) % 16 * 16 + (b % 16 * 4 + c / 64) / 4 = b := by omega
    have v3 : (b % 16 * 4 + c / 64) % 4 * 64 + c % 64 = c := by omega
    simp [v1, v2, v3]

theorem encodeGroups_ne_nil (l : List Nat) (h : l ≠ []) : encodeGroups l ≠ [] := by
  rcases l with _ | ⟨a, _ | ⟨b, _ | ⟨c, rest⟩⟩⟩ <;> simp [encodeGroups] at h ⊢

/-- C10: the reversed-base64 body transport encoding round-trips: decoding an
encoded byte string succeeds and returns the original bytes, the empty input
included (it decodes to nil bytes with no error). -/
theorem c10_base64v1_roundtrip (b : List Nat) (h : ∀ x ∈ b, x < 256) :
    decodeBase64V1 (encodeBase64V1 b) = some b := by
  by_cases hb : b = []
  · subst hb
    rfl
  · unfold decodeBase64V1 encodeBase64V1
    rw [if_neg (by simp [encodeGroups_ne_nil b hb])]
    rw [List.reverse_reverse]
    exact decodeB64_encodeGroups b h

/-- Concrete instantiation of the transport-encoding round-trip at a 4-byte
input exercising both a full and a padded final group. -/
theorem c10_base64v1_roundtrip_witness :
    decodeBase64V1 (encodeBase64V1 [104, 105, 33, 255]) = some [104, 105, 33, 255] :=
  c10_base64v1_roundtrip [104, 105, 33, 255] (by decide)

theorem valueFromJson_valueToJson (v : FieldValue) :
    valueFromJson v.typ (valueToJson v) = some v := by
  cases v <;> rfl

theorem decodeFields_skip (flds : List FieldDef) (n : GoStr) (jv : JsonValue) (j : JsonObj)
    (h : ∀ fd ∈ flds, fd.name ≠ n) :
    decodeFields flds ((n, jv) :: j) = decodeFields flds j := by
  induction flds with
  | nil => rfl
  | cons fd rest ih =>
    have h1 : fd.name ≠ n := h fd (by simp)
    have h2 : ∀ fd' ∈ rest, fd'.name ≠ n := fun fd' hm => h fd' (by simp [hm])
    simp only [decodeFields, mapGet]
    rw [if_neg (fun hh => h1 hh.symm)]
    rw [ih h2]

theorem decodeFields_roundtrip : ∀ (flds : List FieldDef) (mf : List (GoStr × FieldValue)),
    mf.map Prod.fst = flds.map FieldDef.name →
    mf.map (fun p => p.2.typ) = flds.map FieldDef.typ →
    (flds.map FieldDef.name).Nodup →
    decodeFields flds (mf.map (fun p => (p.1, valueToJson p.2))) = .ok mf := by
  intro flds
  induction flds with
  | nil =>
    intro mf h1 _ _
    rcases mf with _ | ⟨p, mf'⟩
    · rfl
    · simp at h1
  | cons fd rest ih =>
    intro mf h1 h2 hnd
    rcases mf with _ | ⟨⟨n, v⟩, mf'⟩
    · simp at h1
    · simp only [List.map_cons, List.cons.injEq] at h1 h2
      obtain ⟨hn, h1'⟩ := h1
      obtain ⟨ht, h2'⟩ := h2
      simp only [List.map_cons, List.nodup_cons] at hnd
      obtain ⟨hnot, hnd'⟩ := hnd
      subst hn
      have hskip : ∀ fd' ∈ rest, fd'.name ≠ fd.name := by
        intro fd' hm heq
        exact hnot (heq ▸ List.mem_map_of_mem FieldDef.name hm)
      have hget : mapGet ((fd.name, valueToJson v) ::
          mf'.map (fun p => (p.1, valueToJson p.2))) fd.name = some (valueToJson v) := by
        simp [mapGet]
      have hfrom : valueFromJson fd.typ (valueToJson v) = some v := by
        rw [← ht]
        exact valueFromJson_valueToJson v
      simp only [decodeFields, List.map_cons, hget, hfrom]
      rw [decodeFields_skip rest fd.name _ _ hskip]
      rw [ih mf' h1' h2' hnd']
      rfl

/-- C8: encoding a message conforming to a schema with `MessageToJSON` and
decoding the result back through the same schema with `JSONToMessage`
reproduces the same field values; and the encoding emits every field of the
message explicitly — default-valued fields included, none omitted. -/
theorem c8_json_roundtrip_and_defaults (schema : MessageSchema) (msg : DynMessage)
    (hconf : conformsTo schema msg)
    (hnd : (schema.fields.map FieldDef.name).Nodup) :
    JSONToMessage schema (MessageToJSON msg) = .ok msg ∧
    (MessageToJSON msg).map Prod.fst = msg.fields.map Prod.fst := by
  obtain ⟨h1, h2⟩ := hconf
  constructor
  · obtain ⟨mf⟩ := msg
    simp only [JSONToMessage, MessageToJSON]
    rw [decodeFields_roundtrip schema.fields mf h1 h2 hnd]
    rfl
  · simp [MessageToJSON]

/-- Concrete instantiation of the codec round-trip at a message whose fields
all hold their default (zero) values: the encoding still carries every field
name, and decoding returns the same message. -/
theorem c8_json_roundtrip_and_defaults_witness :
    JSONToMessage ⟨[⟨gs "name", .fString⟩, ⟨gs "age", .fInt⟩, ⟨gs "done", .fBool⟩]⟩
        (MessageToJSON ⟨[(gs "name", .vStr []), (gs "age", .vInt 0),
          (gs "done", .vBool false)]⟩) =
      .ok ⟨[(gs "name", .vStr []), (gs "age", .vInt 0), (gs "done", .vBool false)]⟩ ∧
    (MessageToJSON ⟨[(gs "name", .vStr []), (gs "age", .vInt 0),
        (gs "done", .vBool false)]⟩).map Prod.fst =
      [gs "name", gs "age", gs "done"] := by
  have h := c8_json_roundtrip_and_defaults
    ⟨[⟨gs "name", .fString⟩, ⟨gs "age", .fInt⟩, ⟨gs "done", .fBool⟩]⟩
    ⟨[(gs "name", .vStr []), (gs "age", .vInt 0), (gs "done", .vBool false)]⟩
    ⟨rfl, rfl⟩ (by decide)
  exact ⟨h.1, by rw [h.2]; rfl⟩

/-- Flattened list of all services of all parsed files, in iteration order. -/
def allServices : List FileDesc → List ServiceDesc
  | [] => []
  | f :: rest => f.services ++ allServices rest

/-- Services of a set sharing a given short name, in iteration order. -/
def filterByName (l : List ServiceDesc) (k : GoStr) : List ServiceDesc :=
  match l with
  | [] => []
  | t :: rest => if t.name = k then t :: filterByName rest k else filterByName rest k

theorem mem_filterByName (l : List ServiceDesc) (k : GoStr) (t : ServiceDesc) :
    t ∈ filterByName l k ↔ t ∈ l ∧ t.name = k := by
  induction l with
  | nil => simp [filterByName]
  | cons a rest ih =>
    simp only [filterByName]
    by_cases h : a.name = k
    · rw [if_pos h]
      simp only [List.mem_cons, ih]
      constructor
      · rintro (rfl | ⟨hm, hn⟩)
        · exact ⟨Or.inl rfl, h⟩
        · exact ⟨Or.inr hm, hn⟩
      · rintro ⟨rfl | hm, hn⟩
        · exact Or.inl rfl
        · exact Or.inr ⟨hm, hn⟩
    · rw [if_neg h]
      simp only [List.mem_cons, ih]
      constructor
      · rintro ⟨hm, hn⟩
        exact ⟨Or.inr hm, hn⟩
      · rintro ⟨rfl | hm, hn⟩
        · exact absurd hn h
        · exact ⟨hm, hn⟩

theorem buildPool_eq (files : List FileDesc) :
    buildPool files = (allServices files).foldl addService emptyPool := by
  suffices h : ∀ p, files.foldl (fun p fd => fd.services.foldl addService p) p =
      (allServices files).foldl addService p from h emptyPool
  induction files with
  | nil => intro p; rfl
  | cons f rest ih =>
    intro p
    simp only [List.foldl_cons, allServices, List.foldl_append]
    exact ih _

theorem mapGet_addService_byFQN (p : InlineDescriptorPool) (t : ServiceDesc) (k : GoStr) :
    mapGet (addService p t).servicesByFQN k =
      if '.' :: t.fqn = k then some t
      else if t.fqn = k then some t
      else mapGet p.servicesByFQN k := by
  simp only [addService]
  by_cases h1 : '.' :: t.fqn = k
  · rw [if_pos h1, ← h1, mapGet_insert_self]
  · rw [if_neg h1, mapGet_insert_ne _ _ _ _ (fun hh => h1 hh.symm)]
    by_cases h2 : t.fqn = k
    · rw [if_pos h2, ← h2, mapGet_insert_self]
    · rw [if_neg h2, mapGet_insert_ne _ _ _ _ (fun hh => h2 hh.symm)]

theorem mapGet_addService_byName (p : InlineDescriptorPool) (t : ServiceDesc) (k : GoStr) :
    (mapGet (addService p t).servicesByName k).getD [] =
      if t.name = k then (mapGet p.servicesByName k).getD [] ++ [t]
      else (mapGet p.servicesByName k).getD [] := by
  simp only [addService]
  by_cases h : t.name = k
  · rw [if_pos h, ← h, mapGet_insert_self]
    rfl
  · rw [if_neg h, mapGet_insert_ne _ _ _ _ (fun hh => h hh.symm)]

theorem foldl_addService_byName (l : List ServiceDesc) (p : InlineDescriptorPool)
    (k : GoStr) :
    (mapGet ((l.foldl addService p).servicesByName) k).getD [] =
      (mapGet p.servicesByName k).getD [] ++ filterByName l k := by
  induction l generalizing p with
  | nil => simp [filterByName]
  | cons t rest ih =>
    simp only [List.foldl_cons, filterByName]
    rw [ih, mapGet_addService_byName]
    by_cases h : t.name = k
    · rw [if_pos h, if_pos h, List.append_assoc]
      rfl
    · rw [if_neg h, if_neg h]

theorem foldl_addService_byFQN_none (l : List ServiceDesc) (p : InlineDescriptorPool)
    (k : GoStr) (h : ∀ t ∈ l, ¬t.fqn = k ∧ ¬('.' :: t.fqn = k)) :
    mapGet ((l.foldl addService p).servicesByFQN) k = mapGet p.servicesByFQN k := by
  induction l generalizing p with
  | nil => rfl
  | cons t rest ih =>
    simp only [List.foldl_cons]
    rw [ih _ (fun t' hm => h t' (List.mem_cons_of_mem _ hm))]
    rw [mapGet_addService_byFQN]
    obtain ⟨h1, h2⟩ := h t (by simp)
    rw [if_neg h2, if_neg h1]

theorem foldl_addService_byFQN_some :
    ∀ (l : List ServiceDesc) (p : InlineDescriptorPool) (k : GoStr) (s : ServiceDesc),
    (s.fqn = k ∨ '.' :: s.fqn = k) →
    (∀ t ∈ l, (t.fqn = k ∨ '.' :: t.fqn = k) → t = s) →
    (mapGet p.servicesByFQN k = some s ∨ s ∈ l) →
    mapGet ((l.foldl addService p).servicesByFQN) k = some s
  | [], p, k, s, _, _, hbase => by
    rcases hbase with h | h
    · exact h
    · simp at h
  | t :: rest, p, k, s, hs, honly, hbase => by
    simp only [List.foldl_cons]
    apply foldl_addService_byFQN_some rest (addService p t) k s hs
      (fun t' hm hmatch => honly t' (List.mem_cons_of_mem _ hm) hmatch)
    by_cases ht : t.fqn = k ∨ '.' :: t.fqn = k
    · left
      have hts : t = s := honly t (by simp) ht
      subst hts
      rw [mapGet_addService_byFQN]
      rcases ht with h1 | h1
      · by_cases h2 : '.' :: t.fqn = k
        · rw [if_pos h2]
        · rw [if_neg h2, if_pos h1]
      · rw [if_pos h1]
    · push_neg at ht
      rcases hbase with h | h
      · left
        rw [mapGet_addService_byFQN, if_neg ht.2, if_neg ht.1]
        exact h
      · rcases List.mem_cons.mp h with h1 | h1
        · exact absurd hs (h1 ▸ ht.imp (fun a => a) (fun a => a) |> fun hh =>
            by rintro (h2 | h2); exacts [hh.1 h2, hh.2 h2])
        · exact Or.inr h1

theorem dropWhile_eq_self_of_all (f : Char → Bool) (x : GoStr)
    (h : ∀ c ∈ x, f c = false) : x.dropWhile f = x := by
  cases x with
  | nil => rfl
  | cons c rest => simp [List.dropWhile_cons, h c (by simp)]

theorem goTrimSpace_eq_self (x : GoStr) (h : ∀ c ∈ x, isGoSpace c = false) :
    goTrimSpace x = x := by
  unfold goTrimSpace
  rw [dropWhile_eq_self_of_all _ _ h]
  rw [dropWhile_eq_self_of_all _ _ (fun c hc => h c (List.mem_reverse.mp hc))]
  exact List.reverse_reverse x

theorem hasPre_single_eq_false (c : Char) (x : GoStr) (h : x.head? ≠ some c) :
    hasPre [c] x = false := by
  cases x with
  | nil => rfl
  | cons d rest =>
    have hd : ¬c = d := by
      intro hh
      exact h (by simp [hh])
    simp [hasPre, hd]

theorem goTrimLead_eq_self_of_head (c : Char) (x : GoStr) (h : x.head? ≠ some c) :
    goTrimLead x [c] = x := by
  simp [goTrimLead, hasPre_single_eq_false c x h]

theorem goTrimLead_eq_self_of_not_mem (c : Char) (x : GoStr) (h : c ∉ x) :
    goTrimLead x [c] = x := by
  apply goTrimLead_eq_self_of_head
  cases x with
  | nil => simp
  | cons d rest =>
    intro hh
    have hdc : d = c := by simpa using hh
    subst hdc
    exact h (List.mem_cons_self d rest)

theorem resolve_eq_lookup (p : InlineDescriptorPool) (s m : GoStr)
    (hs1 : ∀ c ∈ s, isGoSpace c = false)
    (hs2 : s.head? ≠ some '/')
    (hs3 : s.head? ≠ some '.')
    (hm1 : ∀ c ∈ m, isGoSpace c = false)
    (hm2 : '/' ∉ m) :
    p.Resolve s m = p.lookupAfterNorm s m := by
  unfold InlineDescriptorPool.Resolve
  simp only [goTrimSpace_eq_self s hs1, goTrimSpace_eq_self m hm1, if_neg hm2]
  rw [goTrimLead_eq_self_of_head '/' s hs2, goTrimLead_eq_self_of_head '.' s hs3,
    goTrimLead_eq_self_of_not_mem '/' m hm2]

theorem head_mem (x : GoStr) (c : Char) (h : x.head? = some c) : c ∈ x := by
  cases x with
  | nil => simp at h
  | cons d r =>
    simp only [List.head?_cons, Option.some.injEq] at h
    rw [← h]
    exact List.mem_cons_self d r

/-- Service lookup written after the claim's words: (a) exact fully-qualified
match; (b) fully-qualified match of the leading-dot variant; (c) short-name
match succeeding only when exactly one service of the whole set bears that
short name, with two or more candidates reported in an error listing every
candidate's fully-qualified name; method lookup within the selected service
is by exact name, a miss naming both the method and the service FQN. -/
def specServiceLookup (files : List FileDesc) (s m : GoStr) :
    Except CoreError ResolvedMethod :=
  match mapGet (buildPool files).servicesByFQN s with
  | some v => methodOutcome v m
  | none =>
    match mapGet (buildPool files).servicesByFQN ('.' :: s) with
    | some v => methodOutcome v m
    | none =>
      match filterByName (allServices files) s with
      | [] => .error (.serviceNotFound s)
      | [v] => methodOutcome v m
      | list => .error (.ambiguousService s (list.map ServiceDesc.fqn))

/-- C5: on clean (already normalized, nonempty) service and method strings,
`InlineDescriptorPool.Resolve` over a pool built from parsed files follows
exactly the claimed lookup order — exact FQN, leading-dot variant, then a
short-name match that succeeds only for a unique bearer, fails listing every
fully-qualified candidate on ambiguity, fails with service-not-found when no
service bears the name, and reports a method miss naming the method and the
service's FQN. -/
theorem c5_lookup_order (files : List FileDesc) (s m : GoStr)
    (hs0 : s ≠ []) (hs1 : ∀ c ∈ s, isGoSpace c = false)
    (hs2 : s.head? ≠ some '/') (hs3 : s.head? ≠ some '.')
    (hm0 : m ≠ []) (hm1 : ∀ c ∈ m, isGoSpace c = false) (hm2 : '/' ∉ m) :
    (buildPool files).Resolve s m = specServiceLookup files s m := by
  rw [resolve_eq_lookup _ _ _ hs1 hs2 hs3 hm1 hm2]
  unfold InlineDescriptorPool.lookupAfterNorm specServiceLookup
  rw [if_neg (by simp [hs0, hm0])]
  have hbn : (mapGet (buildPool files).servicesByName s).getD [] =
      filterByName (allServices files) s := by
    rw [buildPool_eq, foldl_addService_byName]
    rfl
  rw [hbn]
  rcases h1 : mapGet (buildPool files).servicesByFQN s with _ | v
  · simp only [h1]
    rcases h2 : mapGet (buildPool files).servicesByFQN ('.' :: s) with _ | v
    · simp only [h2]
      rcases h3 : filterByName (allServices files) s with _ | ⟨v1, rest1⟩
      · rfl
      · rcases rest1 with _ | ⟨v2, rest2⟩ <;> rfl
    · rfl
  · rfl

/-- Service "qkg.A" sharing the short name "A" with `svcA1`. -/
def svcQA : ServiceDesc := ⟨gs "qkg", gs "A", [⟨gs "M1", gs "qkg.A", false, false⟩]⟩

/-- Concrete instantiation of the lookup-order theorem over a pool with two
services sharing the short name "A": the short name is ambiguous listing both
FQNs, the FQN resolves, an unknown name is not found, and a method miss names
the method and the service. -/
theorem c5_lookup_order_witness :
    (buildPool [⟨[svcA1, svcQA]⟩]).Resolve (gs "A") (gs "M1") =
      .error (.ambiguousService (gs "A") [gs "pkg.A", gs "qkg.A"]) ∧
    (buildPool [⟨[svcA1, svcQA]⟩]).Resolve (gs "pkg.A") (gs "M1") =
      .ok ⟨⟨gs "M1", gs "pkg.A", false, false⟩, gs "pkg.A"⟩ ∧
    (buildPool [⟨[svcA1, svcQA]⟩]).Resolve (gs "B") (gs "M1") =
      .error (.serviceNotFound (gs "B")) ∧
    (buildPool [⟨[svcA1, svcQA]⟩]).Resolve (gs "pkg.A") (gs "Nope") =
      .error (.methodNotFoundInService (gs "Nope") (gs "pkg.A")) := by
  refine ⟨?_, ?_, ?_, ?_⟩
  · exact (c5_lookup_order [⟨[svcA1, svcQA]⟩] (gs "A") (gs "M1") (by decide) (by decide)
      (by decide) (by decide) (by decide) (by decide) (by decide)).trans (by decide)
  · exact (c5_lookup_order [⟨[svcA1, svcQA]⟩] (gs "pkg.A") (gs "M1") (by decide) (by decide)
      (by decide) (by decide) (by decide) (by decide) (by decide)).trans (by decide)
  · exact (c5_lookup_order [⟨[svcA1, svcQA]⟩] (gs "B") (gs "M1") (by decide) (by decide)
      (by decide) (by decide) (by decide) (by decide) (by decide)).trans (by decide)
  · exact (c5_lookup_order [⟨[svcA1, svcQA]⟩] (gs "pkg.A") (gs "Nope") (by decide) (by decide)
      (by decide) (by decide) (by decide) (by decide) (by decide)).trans (by decide)

/-- C7: for a pool built from a valid descriptor set (unique FQNs, no
service FQN starting with a dot, clean identifiers) in which exactly one
service bears the short name, resolving a method by the owning service's
fully-qualified name and by its short name return the same Resolved Method,
with the same owning-service FQN. -/
theorem c7_fqn_and_short_name_agree (files : List FileDesc) (s : ServiceDesc)
    (md : MethodDescriptor) (M : GoStr)
    (hfilter : filterByName (allServices files) s.name = [s])
    (huniq : ∀ t ∈ allServices files, t.fqn = s.fqn → t = s)
    (hdotAll : ∀ t ∈ allServices files, t.fqn.head? ≠ some '.')
    (hf0 : s.fqn ≠ []) (hf1 : ∀ c ∈ s.fqn, isGoSpace c = false)
    (hf2 : s.fqn.head? ≠ some '/')
    (hn0 : s.name ≠ []) (hn1 : ∀ c ∈ s.name, isGoSpace c = false)
    (hn2 : s.name.head? ≠ some '/')
    (hNoDot : '.' ∉ s.name)
    (hM0 : M ≠ []) (hM1 : ∀ c ∈ M, isGoSpace c = false) (hM2 : '/' ∉ M)
    (hfind : findMethodByName s.methods M = some md) :
    (buildPool files).Resolve s.fqn M = .ok ⟨md, s.fqn⟩ ∧
    (buildPool files).Resolve s.name M = .ok ⟨md, s.fqn⟩ := by
  have hmem : s ∈ allServices files :=
    ((mem_filterByName _ _ s).mp (by rw [hfilter]; exact List.mem_singleton.mpr rfl)).1
  have hshort : ∀ t ∈ allServices files, t.name = s.name → t = s := by
    intro t hm hn
    have ht : t ∈ filterByName (allServices files) s.name :=
      (mem_filterByName _ _ t).mpr ⟨hm, hn⟩
    rw [hfilter] at ht
    simpa using ht
  have hf3 : s.fqn.head? ≠ some '.' := hdotAll s hmem
  have hn3 : s.name.head? ≠ some '.' := fun hh => hNoDot (head_mem _ _ hh)
  constructor
  · rw [resolve_eq_lookup _ _ _ hf1 hf2 hf3 hM1 hM2]
    unfold InlineDescriptorPool.lookupAfterNorm
    rw [if_neg (by simp [hf0, hM0])]
    have hsome : mapGet (buildPool files).servicesByFQN s.fqn = some s := by
      rw [buildPool_eq]
      refine foldl_addService_byFQN_some _ _ _ _ (Or.inl rfl) ?_ (Or.inr hmem)
      intro t hm hmatch
      rcases hmatch with h1 | h1
      · exact huniq t hm h1
      · exact absurd (show s.fqn.head? = some '.' by rw [← h1]; rfl) hf3
    simp only [hsome]
    unfold methodOutcome
    rw [hfind]
  · rw [resolve_eq_lookup _ _ _ hn1 hn2 hn3 hM1 hM2]
    unfold InlineDescriptorPool.lookupAfterNorm
    rw [if_neg (by simp [hn0, hM0])]
    by_cases heq : s.fqn = s.name
    · have hsome : mapGet (buildPool files).servicesByFQN s.name = some s := by
        rw [buildPool_eq]
        refine foldl_addService_byFQN_some _ _ _ _ (Or.inl heq) ?_ (Or.inr hmem)
        intro t hm hmatch
        rcases hmatch with h1 | h1
        · exact huniq t hm (h1.trans heq.symm)
        · exact absurd (show s.name.head? = some '.' by rw [← h1]; rfl) hn3
      simp only [hsome]
      unfold methodOutcome
      rw [hfind]
    · have hA : ∀ t ∈ allServices files, t.fqn ≠ s.name := by
        intro t hm hfq
        by_cases hp : t.pkg = []
        · have hfqn : t.fqn = t.name := by simp [ServiceDesc.fqn, hp]
          have htn : t.name = s.name := by rw [← hfqn]; exact hfq
          have hts : t = s := hshort t hm htn
          exact heq (hts ▸ hfq)
        · apply hNoDot
          have hdot : '.' ∈ t.fqn := by simp [ServiceDesc.fqn, hp]
          rw [hfq] at hdot
          exact hdot
      have hnone1 : mapGet (buildPool files).servicesByFQN s.name = none := by
        rw [buildPool_eq, foldl_addService_byFQN_none]
        · rfl
        · intro t hm
          refine ⟨hA t hm, ?_⟩
          intro h1
          exact hn3 (by rw [← h1]; rfl)
      have hnone2 : mapGet (buildPool files).servicesByFQN ('.' :: s.name) = none := by
        rw [buildPool_eq, foldl_addService_byFQN_none]
        · rfl
        · intro t hm
          constructor
          · intro h1
            exact hdotAll t hm (by rw [h1]; rfl)
          · intro h1
            exact hA t hm (by simpa using h1)
      have hbn : (mapGet (buildPool files).servicesByName s.name).getD [] = [s] := by
        rw [buildPool_eq, foldl_addService_byName, hfilter]
        rfl
      simp only [hnone1, hnone2, hbn]
      unfold methodOutcome
      rw [hfind]

/-- Concrete instantiation of the FQN/short-name agreement theorem at service
pkg.Svc with method Method: both resolutions return the same Resolved Method
with the same owning-service FQN. -/
theorem c7_fqn_and_short_name_agree_witness :
    (buildPool [⟨[svcPkgSvc]⟩]).Resolve (gs "pkg.Svc") (gs "Method") =
      .ok ⟨⟨gs "Method", gs "pkg.Svc", false, false⟩, gs "pkg.Svc"⟩ ∧
    (buildPool [⟨[svcPkgSvc]⟩]).Resolve (gs "Svc") (gs "Method") =
      .ok ⟨⟨gs "Method", gs "pkg.Svc", false, false⟩, gs "pkg.Svc"⟩ := by
  have h := c7_fqn_and_short_name_agree [⟨[svcPkgSvc]⟩] svcPkgSvc
    ⟨gs "Method", gs "pkg.Svc", false, false⟩ (gs "Method")
    (by decide) (by decide) (by decide) (by decide) (by decide) (by decide)
    (by decide) (by decide) (by decide) (by decide) (by decide) (by decide)
    (by decide) (by decide)
  exact h

end Gateway
